import Mathlib

/-!
Verification development for the docx position-mapping / run-splitting engine
(`src/docx/document.py` and `src/docx/utilities.py`).

Strings are modelled as `List Char` (Python `str`), the pandas DataFrame as a
`List` of row records, and the mutable document tree as an explicit `DocTree`
value threaded through the operations.  Python exceptions are modelled with
`Except`; an erroring step also returns the tree state reached at the moment
the exception is raised, since the in-place tree mutations survive a raised
exception.
-/

namespace Docx

/-! ## utilities.py -/

/-- `SPECIALCHARS_EN = r'~!@#$%^&*()_-+={}[]|\`:\"\'<>?/.,;'` — the raw string
literal spelled out character by character (the backslash occurs three times
because the source uses a raw string, so `\"`, `\'` and the backslash before
the backtick are two characters each).  Character codes 123/125/92/96/34/39
are the brace, backslash, backtick, double-quote and single-quote
characters. -/
def SPECIALCHARS_EN : List Char :=
  ['~', '!', '@', '#', '$', '%', '^', '&', '*', '(', ')', '_', '-', '+', '=',
   Char.ofNat 123, Char.ofNat 125, '[', ']', '|', Char.ofNat 92, Char.ofNat 96,
   ':', Char.ofNat 92, Char.ofNat 34, Char.ofNat 92, Char.ofNat 39,
   '<', '>', '?', '/', '.', ',', ';']

/-- `SPECIALCHARS_CH = '·~！@#￥%……&*（）——+-={}|【】：“‘；：”’《》，。？、'`
('……' is two ellipsis characters and '——' two em-dashes; codes 123/125 are
the ASCII braces). -/
def SPECIALCHARS_CH : List Char :=
  ['·', '~', '！', '@', '#', '￥', '%', '…', '…', '&', '*', '（', '）', '—', '—',
   '+', '-', '=', Char.ofNat 123, Char.ofNat 125, '|', '【', '】', '：', '“',
   '‘', '；', '：', '”', '’', '《', '》', '，', '。', '？', '、']

/-- `SPECIAL_SEP = [' ','\n','\t','　']` (code 12288 is the ideographic
full-width space `　`). -/
def SPECIAL_SEP : List Char := [' ', '\n', '\t', Char.ofNat 12288]

/-- Python `s.replace(c, '')` for a single-character pattern `c`: remove every
occurrence of `c` from `s`. -/
def pyReplace : List Char → Char → List Char
  | [], _ => []
  | x :: xs, c => if x = c then pyReplace xs c else x :: pyReplace xs c

/-- `rmSpecailChar` from `utilities.py`: successively delete every character of
`SPECIALCHARS_EN + SPECIALCHARS_CH`, then every separator of `SPECIAL_SEP`. -/
def rmSpecailChar (s : List Char) : List Char :=
  SPECIAL_SEP.foldl (fun t c => pyReplace t c)
    ((SPECIALCHARS_EN ++ SPECIALCHARS_CH).foldl (fun t c => pyReplace t c) s)

/-- The full noise character set: English punctuation, Chinese punctuation and
the separators. -/
def noiseChars : List Char := SPECIALCHARS_EN ++ SPECIALCHARS_CH ++ SPECIAL_SEP

/-- A character is noise iff it occurs in one of the three configured sets. -/
def isNoise (ch : Char) : Bool := ch ∈ noiseChars

/-- Modelled from the spec: the Filtered Mapping table of §3/§4.4 (one row per
retained character of the raw concatenation, storing the character and its raw
0-based index) is described by the spec but has no implementation under
`src/`; this definition follows the spec's words: walk raw 0-based positions
and, for each character that is not noise, append a row `(char, raw_index)`. -/
def filteredMapping (s : List Char) : List (Char × Nat) :=
  s.enum.filterMap fun p => if isNoise p.2 then none else some (p.2, p.1)

/-! ## Document object model

The paragraph/run/table object model (python-docx `text/run.py`,
`table.py`, `blkcntnr.py`) is not under `src/`; only `document.py` consumes
it.  It is modelled from the spec (§6 External Interfaces). -/

/-- Modelled from the spec: the non-highlight character formatting attributes a
run exposes and that `insert_run_before` copies (style, bold, cs_bold, italic,
size, underline, §4.6/§6). Attribute values are opaque; `Option` captures the
"not set" state. -/
structure RunFmt where
  style : Option Nat
  bold : Option Bool
  cs_bold : Option Bool
  italic : Option Bool
  size : Option Nat
  underline : Option Bool
deriving DecidableEq

/-- Modelled from the spec: a run — literal text plus formatting attributes
plus an optional highlight color (§6). -/
structure Run where
  text : List Char
  fmt : RunFmt
  highlight_color : Option Nat
deriving DecidableEq

/-- Modelled from the spec: a paragraph is an ordered run list (§6). -/
structure Paragraph where
  runs : List Run
deriving DecidableEq

/-- Modelled from the spec: a table cell holds an ordered paragraph list (§6). -/
structure Cell where
  paragraphs : List Paragraph
deriving DecidableEq

/-- Modelled from the spec: a table row holds an ordered cell list (§6). -/
structure TableRow where
  cells : List Cell
deriving DecidableEq

/-- Modelled from the spec: a table holds an ordered row list (§6). -/
structure Table where
  rows : List TableRow
deriving DecidableEq

/-- Modelled from the spec: a top-level block is a paragraph or a table, other
node kinds being skipped at enumeration (§4.1). -/
inductive Block where
  | para (p : Paragraph)
  | table (t : Table)
deriving DecidableEq

/-- The document tree: the ordered top-level child sequence of the body. -/
abbrev DocTree := List Block

/-- `Document.paragraphs`: the top-level paragraphs, in document order. -/
def docParagraphs (d : DocTree) : List Paragraph :=
  d.filterMap fun b => match b with | .para p => some p | .table _ => none

/-- `Document.tables`: the top-level tables, in document order. -/
def docTables (d : DocTree) : List Table :=
  d.filterMap fun b => match b with | .para _ => none | .table t => some t

/-- Concatenated text of a paragraph's runs. -/
def paraText (p : Paragraph) : List Char := (p.runs.map Run.text).flatten

/-- Concatenated text of a cell. -/
def cellText (c : Cell) : List Char := (c.paragraphs.map paraText).flatten

/-- Concatenated text of a table row. -/
def rowText (rw : TableRow) : List Char := (rw.cells.map cellText).flatten

/-- Concatenated text of a table. -/
def tableText (t : Table) : List Char := (t.rows.map rowText).flatten

/-- Concatenated text of one block. -/
def blockText : Block → List Char
  | .para p => paraText p
  | .table t => tableText t

/-- Concatenated text of the whole document, in document order. -/
def docText (d : DocTree) : List Char := (d.map blockText).flatten

/-! ## `Document._parse` — the DataFrame model

A DataFrame row carries the `string`, `run_ID`, `block_ID`, `paragraph_ID`
columns and, for rows that belong to a table, the `table_ID`/`row_ID`/`cell_ID`
columns.  `tbl = none` covers both the document-without-tables case (columns
absent) and the NaN entries of paragraph rows in a mixed document: both are
routed to the paragraph branch of `_highlight_basic` (the `'table_ID' not in
df.columns` test and the `isnan` test). -/

/-- One row of `self._dataframe` as produced by `_parse`. -/
structure Row where
  string : List Char
  run_ID : Nat
  block_ID : Nat
  paragraph_ID : Nat
  tbl : Option (Nat × Nat × Nat)
deriving DecidableEq

/-- Indexed map-and-concatenate: applies `f` to each element together with its
running index, concatenating the produced lists (models the `arange`-indexed
sub-frame construction plus `concat`). -/
def mapIdxFlat (f : Nat → α → List β) : Nat → List α → List β
  | _, [] => []
  | i, a :: rest => f i a ++ mapIdxFlat f (i + 1) rest

/-- Rows produced for one top-level paragraph: one row per run, `run_ID` from
`arange`, with the given `block_ID` and `paragraph_ID`. -/
def paraRows (p : Paragraph) (bc pc : Nat) : List Row :=
  mapIdxFlat (fun k r => [⟨r.text, k, bc, pc, none⟩]) 0 p.runs

/-- Rows produced for one table: rows → cells → paragraphs-within-cell →
runs-within-paragraph, with `row_ID`, `cell_ID`, cell-local `paragraph_ID` and
`run_ID` counters as in `_parse`. -/
def tableRows (t : Table) (bc tc : Nat) : List Row :=
  mapIdxFlat (fun ri rw =>
    mapIdxFlat (fun ci cl =>
      mapIdxFlat (fun pi p =>
        mapIdxFlat (fun k r => [⟨r.text, k, bc, pi, some (tc, ri, ci)⟩]) 0 p.runs)
        0 cl.paragraphs)
      0 rw.cells)
    0 t.rows

/-- The body of `_parse`: iterate the blocks carrying the `block_count`,
`paragraph_count` and `table_count` counters. -/
def parseGo : List Block → Nat → Nat → Nat → List Row
  | [], _, _, _ => []
  | .para p :: bs, bc, pc, tc => paraRows p bc pc ++ parseGo bs (bc + 1) (pc + 1) tc
  | .table t :: bs, bc, pc, tc => tableRows t bc tc ++ parseGo bs (bc + 1) pc (tc + 1)

/-- `Document._parse`: the DataFrame of the whole document. -/
def parseDoc (d : DocTree) : List Row := parseGo d 0 0 0

/-- A row after `highlight` adds the `len_string` / `first_num` / `last_num`
columns (`len_string = len(string)`, `last_num = cumsum(len_string)`,
`first_num = last_num.shift(1) + 1` with row 0 patched to `1`). -/
structure IRow extends Row where
  len_string : Nat
  first_num : Nat
  last_num : Nat
deriving DecidableEq

/-- Cumulative-bound computation with accumulator `cum` (total length of
preceding rows): `first_num = cum + 1`, `last_num = cum + len`.  For row 0
(`cum = 0`) this gives `first_num = 1`, the value `highlight` patches in; for
later rows it is the previous `last_num + 1`, the value `shift(1) + 1`
computes. -/
def addBoundsGo : List Row → Nat → List IRow
  | [], _ => []
  | r :: rest, cum =>
      ⟨r, r.string.length, cum + 1, cum + r.string.length⟩ ::
        addBoundsGo rest (cum + r.string.length)

/-- The `len_string`/`last_num`/`first_num` column computation of `highlight`. -/
def addBounds (rows : List Row) : List IRow := addBoundsGo rows 0

/-! ## `Document` facade and `highlight` -/

/-- The `Document` proxy object: the wrapped XML element and part are
represented by reference identities, and the two lazily cached DataFrames by
`Option` values (`None` in `__init__`).  The tree state belonging to `elemId`
is threaded separately, since every `Document` wrapping the same element
observes the same mutable tree. -/
structure Document where
  elemId : Nat
  partId : Nat
  dataframe : Option (List Row)
  dataframe_without_sc : Option (List Row)
deriving DecidableEq

/-- The exceptions `highlight` can raise: the explicit `ValueError` for an
inverted range, and the `IndexError`/`KeyError` of a failed positional lookup
on a list or on the DataFrame. -/
inductive HlErr where
  | invalidRange
  | indexError
deriving DecidableEq

/-- Replace the element at position `i` (no-op when out of range). -/
def updNth : List α → Nat → (α → α) → List α
  | [], _, _ => []
  | x :: xs, 0, f => f x :: xs
  | x :: xs, n + 1, f => x :: updNth xs n f

/-- Replace the `i`-th top-level paragraph block (counting only paragraphs, as
`self.paragraphs` indexing does). -/
def setParaAt : DocTree → Nat → Paragraph → DocTree
  | [], _, _ => []
  | .para _ :: bs, 0, p' => .para p' :: bs
  | .para q :: bs, n + 1, p' => .para q :: setParaAt bs n p'
  | .table t :: bs, n, p' => .table t :: setParaAt bs n p'

/-- Replace the `i`-th top-level table block (counting only tables, as
`self.tables` indexing does). -/
def setTableAt : DocTree → Nat → Table → DocTree
  | [], _, _ => []
  | .table _ :: bs, 0, t' => .table t' :: bs
  | .table q :: bs, n + 1, t' => .table q :: setTableAt bs n t'
  | .para p :: bs, n, t' => .para p :: setTableAt bs n t'

/-- Replace the paragraph at `rows[rid].cells[cid].paragraphs[pid]` inside a
table. -/
def setCellParaAt (t : Table) (rid cid pid : Nat) (p' : Paragraph) : Table :=
  ⟨updNth t.rows rid fun rw =>
    ⟨updNth rw.cells cid fun cl =>
      ⟨updNth cl.paragraphs pid fun _ => p'⟩⟩⟩

/-- Modelled from the spec: the net effect on the owning paragraph of the
`insert_run_before` / `delete_run` mutation primitives (§6, §4.6) — the new
runs are inserted immediately before the original run, in order, and the
original run is then deleted, so the original run at position `k` is replaced
in place by `pieces`.  These primitives live in python-docx `text/run.py`,
which is not under `src/`. -/
def replaceRunAt (p : Paragraph) (k : Nat) (pieces : List Run) : Paragraph :=
  ⟨p.runs.take k ++ pieces ++ p.runs.drop (k + 1)⟩

/-- The new runs built by one `_highlight_basic` split of run `r` at relative
range `[rs, re)`: `head = text[:rs]` (inserted only when nonempty, formatting
copied, no highlight), `mid = text[rs:re]` (always inserted, formatting copied
plus the requested `highlight_color`), `tail = text[re:]` (inserted only when
nonempty, formatting copied, no highlight). -/
def runPieces (r : Run) (rs re c : Nat) : List Run :=
  (if r.text.take rs = [] then [] else [⟨r.text.take rs, r.fmt, none⟩])
    ++ [⟨(r.text.drop rs).take (re - rs), r.fmt, some c⟩]
    ++ (if r.text.drop re = [] then [] else [⟨r.text.drop re, r.fmt, none⟩])

/-- Map over a list carrying the absolute row index starting at `j` (models
the `df.index`-based boolean selection). -/
def mapFrom (f : Nat → IRow → IRow) : Nat → List IRow → List IRow
  | _, [] => []
  | j, r :: rest => f j r :: mapFrom f (j + 1) rest

/-- The `run_ID` renumbering in the paragraph branch of `_highlight_basic`:
`df.loc[(df['paragraph_ID']==pid) & (df.index>idx), 'run_ID'] += 1`.  Note the
selection tests only `paragraph_ID` and the row index — there is no
block/table condition. -/
def renumPara (df : List IRow) (idx pid : Nat) : List IRow :=
  mapFrom
    (fun j r =>
      if r.paragraph_ID = pid ∧ idx < j then
        ⟨⟨r.string, r.run_ID + 1, r.block_ID, r.paragraph_ID, r.tbl⟩,
         r.len_string, r.first_num, r.last_num⟩
      else r)
    0 df

/-- The `run_ID` renumbering in the table branch of `_highlight_basic`: the
selection additionally matches `table_ID`, `row_ID` and `cell_ID` (a NaN
`table_ID` compares unequal, so paragraph rows never match). -/
def renumTable (df : List IRow) (idx tid rid cid pid : Nat) : List IRow :=
  mapFrom
    (fun j r =>
      if r.tbl = some (tid, rid, cid) ∧ r.paragraph_ID = pid ∧ idx < j then
        ⟨⟨r.string, r.run_ID + 1, r.block_ID, r.paragraph_ID, r.tbl⟩,
         r.len_string, r.first_num, r.last_num⟩
      else r)
    0 df

/-- `Document._highlight_basic`: split the run addressed by DataFrame row
`idx` at relative range `[rs, re)` with highlight color `c`.  All positional
lookups precede any mutation, so a failed lookup raises before the tree or the
DataFrame changes. -/
def hlBasic (tree : DocTree) (df : List IRow) (idx rs re c : Nat) :
    Except HlErr (DocTree × List IRow) :=
  match df[idx]? with
  | none => .error .indexError
  | some row =>
    match row.tbl with
    | none =>
      match (docParagraphs tree)[row.paragraph_ID]? with
      | none => .error .indexError
      | some p =>
        match p.runs[row.run_ID]? with
        | none => .error .indexError
        | some r =>
          let df1 := if r.text.take rs = [] then df else renumPara df idx row.paragraph_ID
          let df2 := if r.text.drop re = [] then df1 else renumPara df1 idx row.paragraph_ID
          .ok (setParaAt tree row.paragraph_ID
                 (replaceRunAt p row.run_ID (runPieces r rs re c)), df2)
    | some (tid, rid, cid) =>
      match (docTables tree)[tid]? with
      | none => .error .indexError
      | some t =>
        match t.rows[rid]? with
        | none => .error .indexError
        | some rw =>
          match rw.cells[cid]? with
          | none => .error .indexError
          | some cl =>
            match cl.paragraphs[row.paragraph_ID]? with
            | none => .error .indexError
            | some p =>
              match p.runs[row.run_ID]? with
              | none => .error .indexError
              | some r =>
                let df1 := if r.text.take rs = [] then df
                           else renumTable df idx tid rid cid row.paragraph_ID
                let df2 := if r.text.drop re = [] then df1
                           else renumTable df1 idx tid rid cid row.paragraph_ID
                .ok (setTableAt tree tid
                       (setCellParaAt t rid cid row.paragraph_ID
                         (replaceRunAt p row.run_ID (runPieces r rs re c))), df2)

/-- The covered-row selection of `highlight`:
`df[~(start_num > df['last_num']) & ~(end_num < df['first_num'])].index`, in
ascending index order. -/
def coveredIdx (df : List IRow) (s e : Nat) : List Nat :=
  df.enum.filterMap fun p =>
    if ¬ s > p.2.last_num ∧ ¬ e < p.2.first_num then some p.1 else none

/-- The inner loop of `highlight` over the covered row indices: for each `idx`,
`rel_start = max(start_num - first_num, 0)` and
`rel_end = max(end_num - first_num, 0)` are read from the current DataFrame
and `_highlight_basic` is called with `rel_start` and `rel_end + 1`.  The tree
state reached so far is returned even when a lookup raises. -/
def hlIdxs : List Nat → DocTree → List IRow → Nat → Nat → Nat →
    DocTree × Except HlErr (List IRow)
  | [], t, df, _, _, _ => (t, .ok df)
  | i :: is, t, df, s, e, c =>
    match df[i]? with
    | none => (t, .error .indexError)
    | some row =>
      match hlBasic t df i (s - row.first_num) ((e - row.first_num) + 1) c with
      | .error er => (t, .error er)
      | .ok (t', df') => hlIdxs is t' df' s e c

/-- The outer loop of `highlight` over `position_list`: a pair with a missing
(NaN) endpoint is skipped; then `pos[0] > pos[1]` raises `ValueError`; else
the 1-based `start_num`/`end_num` are formed and the covered rows of the
current DataFrame are processed in ascending order. -/
def hlLoop : DocTree → List IRow → List (Option Nat × Option Nat) → Nat →
    DocTree × Except HlErr (List IRow)
  | t, df, [], _ => (t, .ok df)
  | t, df, (a?, b?) :: ps, c =>
    match a?, b? with
    | some a, some b =>
      if a > b then (t, .error .invalidRange)
      else
        match hlIdxs (coveredIdx df (a + 1) (b + 1)) t df (a + 1) (b + 1) c with
        | (t', .ok df') => hlLoop t' df' ps c
        | (t', .error er) => (t', .error er)
    | _, _ => hlLoop t df ps c

/-- `Document.highlight`: construct a fresh `Document` around the same element
and part, parse the receiver's tree, add the bound columns once, run the range
loop, and return the fresh document.  The receiver's `_dataframe` cache is set
by the embedded `self._parse()` call; the new document's caches stay `None`.
The tree reached when an exception propagates is returned alongside the
exception, since the in-place mutations are not rolled back. -/
def highlight (tree : DocTree) (self : Document)
    (position_list : List (Option Nat × Option Nat)) (c : Nat) :
    DocTree × Document × Except HlErr (Document × List IRow) :=
  let doc : Document := ⟨self.elemId, self.partId, none, none⟩
  let self2 : Document :=
    ⟨self.elemId, self.partId, some (parseDoc tree), self.dataframe_without_sc⟩
  match hlLoop tree (addBounds (parseDoc tree)) position_list c with
  | (t', .ok df') => (t', self2, .ok (doc, df'))
  | (t', .error e) => (t', self2, .error e)

/-! ## Claim-side comparison definitions -/

/-- The highlight loop as claim C1 and §4.3/§5 of the spec describe it: before
each range is processed, the Position Index is recomputed freshly against the
just-mutated tree (fragment re-extraction plus a recompute of the cumulative
bounds for the entire table).  Written to be compared with `hlLoop`, which
reuses one index across all ranges of a call. -/
def hlLoopFresh : DocTree → List (Option Nat × Option Nat) → Nat →
    DocTree × Except HlErr Unit
  | t, [], _ => (t, .ok ())
  | t, (a?, b?) :: ps, c =>
    match a?, b? with
    | some a, some b =>
      if a > b then (t, .error .invalidRange)
      else
        let df := addBounds (parseDoc t)
        match hlIdxs (coveredIdx df (a + 1) (b + 1)) t df (a + 1) (b + 1) c with
        | (t', .ok _) => hlLoopFresh t' ps c
        | (t', .error er) => (t', .error er)
    | _, _ => hlLoopFresh t ps c

/-- The run split as claim C2 words it: pieces head, mid, tail "with any empty
piece omitted (zero to three new runs)" — i.e. the mid piece is also omitted
when empty.  Written to be compared with `runPieces`, which always inserts the
mid piece. -/
def claimSplitPieces (r : Run) (rs re c : Nat) : List Run :=
  (if r.text.take rs = [] then [] else [⟨r.text.take rs, r.fmt, none⟩])
    ++ (if (r.text.drop rs).take (re - rs) = [] then []
        else [⟨(r.text.drop rs).take (re - rs), r.fmt, some c⟩])
    ++ (if r.text.drop re = [] then [] else [⟨r.text.drop re, r.fmt, none⟩])

/-- All columns of an indexed DataFrame row except `run_ID` (the only column
the renumbering steps may change). -/
def IRow.core (r : IRow) :
    List Char × Nat × Nat × Option (Nat × Nat × Nat) × Nat × Nat × Nat :=
  (r.string, r.block_ID, r.paragraph_ID, r.tbl, r.len_string, r.first_num,
   r.last_num)

/-- The error component of a loop result, for stating which exception a call
raises. -/
def errOf (x : DocTree × Except HlErr (List IRow)) : Option HlErr :=
  match x.2 with
  | .error e => some e
  | .ok _ => none

/-! ## Concrete documents used in the scenario theorems -/

/-- A run formatting record with no attribute set. -/
def fmt0 : RunFmt := ⟨none, none, none, none, none, none⟩

/-- A `Document` proxy in its freshly constructed state. -/
def doc0 : Document := ⟨0, 0, none, none⟩

/-- Scenario A/B document: a single paragraph containing one run
`"Hello world"`. -/
def helloDoc : DocTree := [Block.para ⟨[⟨"Hello world".toList, fmt0, none⟩]⟩]

/-- A single paragraph containing one run `"abcd"`. -/
def abcdDoc : DocTree := [Block.para ⟨[⟨"abcd".toList, fmt0, none⟩]⟩]

/-- A single paragraph containing a run `"a"` followed by a run with empty
text. -/
def emptyMidDoc : DocTree := [Block.para ⟨[⟨['a'], fmt0, none⟩, ⟨[], fmt0, none⟩]⟩]

/-- A single paragraph containing one run with empty text. -/
def emptyRunDoc : DocTree := [Block.para ⟨[⟨[], fmt0, none⟩]⟩]

/-- A paragraph with run `"ab"` followed by a 1×1 table whose cell contains a
paragraph with runs `"x"` and `"y"` (the cell-local `paragraph_ID` 0 coincides
with the top-level paragraph's `paragraph_ID` 0). -/
def mixedDoc : DocTree :=
  [Block.para ⟨[⟨['a', 'b'], fmt0, none⟩]⟩,
   Block.table ⟨[⟨[⟨[⟨[⟨['x'], fmt0, none⟩, ⟨['y'], fmt0, none⟩]⟩]⟩]⟩]⟩]

/-! ## Noise-filter lemmas -/

theorem pyReplace_eq_filter (s : List Char) (c : Char) :
    pyReplace s c = s.filter (fun x => x ≠ c) := by
  induction s with
  | nil => rfl
  | cons x xs ih =>
    by_cases hx : x = c <;> simp [pyReplace, hx, ih, List.filter]

theorem foldl_pyReplace_eq_filter (cs : List Char) :
    ∀ s : List Char,
      cs.foldl (fun t c => pyReplace t c) s = s.filter (fun x => x ∉ cs) := by
  induction cs with
  | nil => intro s; simp
  | cons c cs ih =>
    intro s
    rw [List.foldl_cons, ih, pyReplace_eq_filter, List.filter_filter]
    refine List.filter_congr ?_
    intro x _
    by_cases h1 : x ∈ cs <;> by_cases h2 : x = c <;> simp [h1, h2]

theorem rmSpecailChar_eq_filter (s : List Char) :
    rmSpecailChar s = s.filter (fun x => !(isNoise x)) := by
  rw [rmSpecailChar, foldl_pyReplace_eq_filter, foldl_pyReplace_eq_filter,
    List.filter_filter]
  refine List.filter_congr ?_
  intro x _
  by_cases h1 : x ∈ SPECIAL_SEP <;> by_cases h2 : x ∈ SPECIALCHARS_EN <;>
    by_cases h3 : x ∈ SPECIALCHARS_CH <;>
      simp [isNoise, noiseChars, List.mem_append, h1, h2, h3]

theorem filter_length_countP (p : Char → Bool) :
    ∀ s : List Char, (s.filter fun x => !(p x)).length + s.countP p = s.length := by
  intro s
  induction s with
  | nil => rfl
  | cons x xs ih =>
    by_cases hx : p x <;> simp [List.filter, List.countP_cons, hx] <;> omega

/-- Claim C7: for every input string `s`, `rmSpecailChar` returns `s` with
every occurrence of each configured noise character (the English punctuation
set, the Chinese punctuation set, and the separator set) removed, preserving
the relative order of the remaining characters — i.e. it is exactly the order-
preserving filter dropping the noise characters — and the filtered string's
length equals `len(s)` minus the number of noise-character occurrences in
`s`. -/
theorem rmSpecailChar_removes_noise (s : List Char) :
    rmSpecailChar s = s.filter (fun x => !(isNoise x)) ∧
      (rmSpecailChar s).length = s.length - s.countP isNoise := by
  have h1 := rmSpecailChar_eq_filter s
  have h2 := filter_length_countP isNoise s
  refine ⟨h1, ?_⟩
  rw [h1]
  omega

/-- Claim C8 as stated is false on the code: the noise filter is not
configurable to just `,` and `.`, and on `"a, b."` it also removes the space
(listed in `SPECIAL_SEP`), so the result is `"ab"`, not `"a b"`. -/
theorem rmSpecailChar_scenarioE_fails :
    rmSpecailChar ['a', ',', ' ', 'b', '.'] ≠ ['a', ' ', 'b'] := by decide

/-- Claim C8 amended: filtering the text `"a, b."` removes the comma, the
period and also the space (the separator set is part of the fixed noise set),
yielding `"ab"`; in the Filtered Mapping, filtered position 0 maps to raw
position 0 (character `'a'`) and filtered position 1 maps to raw position 3
(character `'b'`). -/
theorem rmSpecailChar_scenarioE_actual :
    rmSpecailChar ['a', ',', ' ', 'b', '.'] = ['a', 'b'] ∧
      filteredMapping ['a', ',', ' ', 'b', '.'] = [('a', 0), ('b', 3)] := by
  decide

/-! ## Cumulative-bound lemmas -/

theorem addBoundsGo_head (rows : List Row) (cum : Nat) (a : IRow)
    (h : (addBoundsGo rows cum)[0]? = some a) : a.first_num = cum + 1 := by
  cases rows with
  | nil => simp [addBoundsGo] at h
  | cons r rest =>
    simp [addBoundsGo] at h
    rw [← h]

theorem addBoundsGo_adj (rows : List Row) :
    ∀ (cum i : Nat) (a b : IRow), (addBoundsGo rows cum)[i]? = some a →
      (addBoundsGo rows cum)[i + 1]? = some b →
      a.last_num + 1 = b.first_num := by
  induction rows with
  | nil => intro cum i a b ha _; simp [addBoundsGo] at ha
  | cons r rest ih =>
    intro cum i a b ha hb
    cases i with
    | zero =>
      simp [addBoundsGo] at ha hb
      have hfirst := addBoundsGo_head rest (cum + r.string.length) b hb
      rw [← ha, hfirst]
    | succ i =>
      simp only [addBoundsGo, List.getElem?_cons_succ] at ha hb
      exact ih (cum + r.string.length) i a b ha hb

theorem addBoundsGo_mem (rows : List Row) :
    ∀ (cum : Nat) (rr : IRow), rr ∈ addBoundsGo rows cum →
      rr.first_num + rr.string.length = rr.last_num + 1 := by
  induction rows with
  | nil => intro cum rr h; simp [addBoundsGo] at h
  | cons r rest ih =>
    intro cum rr h
    rcases (List.mem_cons).mp h with h0 | h0
    · subst h0; simp; omega
    · exact ih (cum + r.string.length) rr h0

/-- Claim C3 as stated is false on the code: a run with empty text yields a
Position Index row with `first_num = last_num + 1` (here `first_num = 1`,
`last_num = 0`), so `first_num ≤ last_num` does not hold for every row. -/
theorem bounds_first_le_last_fails :
    ¬ ∀ rr ∈ addBounds (parseDoc emptyRunDoc), rr.first_num ≤ rr.last_num := by
  decide

/-- Claim C3 amended: whenever the Position Index table is built, row 0 (when
it exists) has `first_num = 1`; adjacent rows are contiguous
(`rows[i].last_num + 1 = rows[i+1].first_num`, no gaps, no overlaps); and
`first_num ≤ last_num` holds for every row whose string is nonempty — in
general only `first_num ≤ last_num + 1`, with equality exactly for zero-length
fragments. -/
theorem addBounds_contiguity (d : DocTree) :
    (∀ a : IRow, (addBounds (parseDoc d))[0]? = some a → a.first_num = 1) ∧
    (∀ (i : Nat) (a b : IRow), (addBounds (parseDoc d))[i]? = some a →
      (addBounds (parseDoc d))[i + 1]? = some b →
      a.last_num + 1 = b.first_num) ∧
    (∀ rr ∈ addBounds (parseDoc d), rr.first_num ≤ rr.last_num + 1 ∧
      (rr.string ≠ [] → rr.first_num ≤ rr.last_num)) := by
  refine ⟨?_, ?_, ?_⟩
  · intro a ha
    exact addBoundsGo_head (parseDoc d) 0 a ha
  · intro i a b ha hb
    exact addBoundsGo_adj (parseDoc d) 0 i a b ha hb
  · intro rr hrr
    have h := addBoundsGo_mem (parseDoc d) 0 rr hrr
    have hlen : rr.string ≠ [] → 1 ≤ rr.string.length := by
      intro hne
      cases hs : rr.string with
      | nil => exact absurd hs hne
      | cons x xs => simp [hs]
    constructor
    · omega
    · intro hne
      have := hlen hne
      omega

/-- Instantiation of `addBounds_contiguity` on the single-run
`"Hello world"` document. -/
theorem addBounds_contiguity_inst :
    (⟨⟨"Hello world".toList, 0, 0, 0, none⟩, 11, 1, 11⟩ : IRow).first_num = 1 ∧
      (⟨⟨"Hello world".toList, 0, 0, 0, none⟩, 11, 1, 11⟩ : IRow).first_num ≤
        (⟨⟨"Hello world".toList, 0, 0, 0, none⟩, 11, 1, 11⟩ : IRow).last_num :=
  ⟨(addBounds_contiguity helloDoc).1 _ (by decide),
   ((addBounds_contiguity helloDoc).2.2 _ (by decide)).2 (by decide)⟩

/-! ## Text conservation through a split -/

theorem splice_eq (t : List Char) (rs re : Nat) (h : rs ≤ re) :
    t.take rs ++ ((t.drop rs).take (re - rs) ++ t.drop re) = t := by
  have h2 : (t.drop rs).drop (re - rs) = t.drop re := by
    rw [List.drop_drop]
    congr 1
    omega
  calc t.take rs ++ ((t.drop rs).take (re - rs) ++ t.drop re)
      = t.take rs ++ ((t.drop rs).take (re - rs) ++ (t.drop rs).drop (re - rs)) := by
        rw [h2]
    _ = t.take rs ++ t.drop rs := by rw [List.take_append_drop]
    _ = t := List.take_append_drop rs t

theorem runPieces_text (r : Run) (rs re c : Nat) (h : rs ≤ re) :
    ((runPieces r rs re c).map Run.text).flatten = r.text := by
  have key := splice_eq r.text rs re h
  by_cases h1 : r.text.take rs = [] <;> by_cases h2 : r.text.drop re = []
  · rw [h1, h2] at key; simpa [runPieces, h1, h2] using key
  · rw [h1] at key; simpa [runPieces, h1, h2] using key
  · rw [h2] at key; simpa [runPieces, h1, h2] using key
  · simpa [runPieces, h1, h2] using key

theorem getElem?_decomp (l : List α) :
    ∀ (k : Nat) (x : α), l[k]? = some x → l.take k ++ x :: l.drop (k + 1) = l := by
  induction l with
  | nil => intro k x h; simp at h
  | cons y ys ih =>
    intro k x h
    cases k with
    | zero => simp at h; simp [h]
    | succ k =>
      simp only [List.getElem?_cons_succ] at h
      simp [ih k x h]

theorem replaceRunAt_text (p : Paragraph) (k : Nat) (r : Run) (pieces : List Run)
    (hget : p.runs[k]? = some r)
    (hp : (pieces.map Run.text).flatten = r.text) :
    paraText (replaceRunAt p k pieces) = paraText p := by
  conv_rhs => rw [paraText, ← getElem?_decomp p.runs k r hget]
  simp [replaceRunAt, paraText, List.map_append, List.flatten_append, hp]

theorem flatten_updNth (h : α → List γ) :
    ∀ (l : List α) (i : Nat) (f : α → α),
      (∀ x, l[i]? = some x → h (f x) = h x) →
      ((updNth l i f).map h).flatten = (l.map h).flatten := by
  intro l
  induction l with
  | nil => intro i f _; rfl
  | cons y ys ih =>
    intro i f hf
    cases i with
    | zero =>
      have := hf y (by simp)
      simp [updNth, this]
    | succ i =>
      have := ih i f (fun x hx => hf x (by simpa using hx))
      simp [updNth, this]

theorem docText_cons (b : Block) (bs : List Block) :
    docText (b :: bs) = blockText b ++ docText bs := by
  simp [docText]

theorem docText_setParaAt :
    ∀ (d : DocTree) (i : Nat) (p p' : Paragraph),
      (docParagraphs d)[i]? = some p → paraText p' = paraText p →
      docText (setParaAt d i p') = docText d := by
  intro d
  induction d with
  | nil => intro i p p' hget _; simp [docParagraphs] at hget
  | cons b bs ih =>
    intro i p p' hget htxt
    cases b with
    | para q =>
      have hq : docParagraphs (Block.para q :: bs) = q :: docParagraphs bs := by
        simp [docParagraphs]
      cases i with
      | zero =>
        rw [hq] at hget
        have hqp : q = p := by simpa using hget
        have htxt2 : paraText p' = paraText q := by rw [htxt, ← hqp]
        show docText (Block.para p' :: bs) = docText (Block.para q :: bs)
        rw [docText_cons, docText_cons]
        simp [blockText, htxt2]
      | succ i =>
        rw [hq] at hget
        simp only [List.getElem?_cons_succ] at hget
        show docText (Block.para q :: setParaAt bs i p') = docText (Block.para q :: bs)
        rw [docText_cons, docText_cons, ih i p p' hget htxt]
    | table t =>
      have hq : docParagraphs (Block.table t :: bs) = docParagraphs bs := by
        simp [docParagraphs]
      rw [hq] at hget
      show docText (Block.table t :: setParaAt bs i p') = docText (Block.table t :: bs)
      rw [docText_cons, docText_cons, ih i p p' hget htxt]

theorem docText_setTableAt :
    ∀ (d : DocTree) (i : Nat) (t t' : Table),
      (docTables d)[i]? = some t → tableText t' = tableText t →
      docText (setTableAt d i t') = docText d := by
  intro d
  induction d with
  | nil => intro i t t' hget _; simp [docTables] at hget
  | cons b bs ih =>
    intro i t t' hget htxt
    cases b with
    | table q =>
      have hq : docTables (Block.table q :: bs) = q :: docTables bs := by
        simp [docTables]
      cases i with
      | zero =>
        rw [hq] at hget
        have hqp : q = t := by simpa using hget
        have htxt2 : tableText t' = tableText q := by rw [htxt, ← hqp]
        show docText (Block.table t' :: bs) = docText (Block.table q :: bs)
        rw [docText_cons, docText_cons]
        simp [blockText, htxt2]
      | succ i =>
        rw [hq] at hget
        simp only [List.getElem?_cons_succ] at hget
        show docText (Block.table q :: setTableAt bs i t') = docText (Block.table q :: bs)
        rw [docText_cons, docText_cons, ih i t t' hget htxt]
    | para p =>
      have hq : docTables (Block.para p :: bs) = docTables bs := by
        simp [docTables]
      rw [hq] at hget
      show docText (Block.para p :: setTableAt bs i t') = docText (Block.para p :: bs)
      rw [docText_cons, docText_cons, ih i t t' hget htxt]

theorem tableText_setCellParaAt (t : Table) (rid cid pid : Nat)
    (p' : Paragraph) (trow : TableRow) (cl : Cell) (p : Paragraph)
    (hrow : t.rows[rid]? = some trow) (hcl : trow.cells[cid]? = some cl)
    (hp : cl.paragraphs[pid]? = some p) (htxt : paraText p' = paraText p) :
    tableText (setCellParaAt t rid cid pid p') = tableText t := by
  rw [setCellParaAt, tableText, tableText]
  refine flatten_updNth rowText t.rows rid _ ?_
  intro x hx
  have hx2 : x = trow := by
    rw [hrow] at hx
    exact (Option.some.inj hx).symm
  subst hx2
  rw [rowText, rowText]
  refine flatten_updNth cellText x.cells cid _ ?_
  intro y hy
  have hy2 : y = cl := by
    rw [hcl] at hy
    exact (Option.some.inj hy).symm
  subst hy2
  rw [cellText, cellText]
  refine flatten_updNth paraText y.paragraphs pid _ ?_
  intro z hz
  have hz2 : z = p := by
    rw [hp] at hz
    exact (Option.some.inj hz).symm
  subst hz2
  exact htxt

theorem hlBasic_docText (tree : DocTree) (df : List IRow) (idx rs re c : Nat)
    (t' : DocTree) (df' : List IRow)
    (h : hlBasic tree df idx rs re c = .ok (t', df')) (hle : rs ≤ re) :
    docText t' = docText tree := by
  cases hidx : df[idx]? with
  | none => simp [hlBasic, hidx] at h
  | some row =>
    cases htbl : row.tbl with
    | none =>
      cases hp : (docParagraphs tree)[row.paragraph_ID]? with
      | none => simp [hlBasic, hidx, htbl, hp] at h
      | some p =>
        cases hr : p.runs[row.run_ID]? with
        | none => simp [hlBasic, hidx, htbl, hp, hr] at h
        | some r =>
          simp only [hlBasic, hidx, htbl, hp, hr, Except.ok.injEq,
            Prod.mk.injEq] at h
          rw [← h.1]
          exact docText_setParaAt tree row.paragraph_ID p _ hp
            (replaceRunAt_text p row.run_ID r _ hr (runPieces_text r rs re c hle))
    | some trip =>
      obtain ⟨tid, rid, cid⟩ := trip
      cases ht : (docTables tree)[tid]? with
      | none => simp [hlBasic, hidx, htbl, ht] at h
      | some t =>
        cases hrow : t.rows[rid]? with
        | none => simp [hlBasic, hidx, htbl, ht, hrow] at h
        | some trow =>
          cases hcl : trow.cells[cid]? with
          | none => simp [hlBasic, hidx, htbl, ht, hrow, hcl] at h
          | some cl =>
            cases hp : cl.paragraphs[row.paragraph_ID]? with
            | none => simp [hlBasic, hidx, htbl, ht, hrow, hcl, hp] at h
            | some p =>
              cases hr : p.runs[row.run_ID]? with
              | none => simp [hlBasic, hidx, htbl, ht, hrow, hcl, hp, hr] at h
              | some r =>
                simp only [hlBasic, hidx, htbl, ht, hrow, hcl, hp, hr,
                  Except.ok.injEq, Prod.mk.injEq] at h
                rw [← h.1]
                exact docText_setTableAt tree tid t _ ht
                  (tableText_setCellParaAt t rid cid row.paragraph_ID _ trow cl p
                    hrow hcl hp
                    (replaceRunAt_text p row.run_ID r _ hr
                      (runPieces_text r rs re c hle)))

theorem hlIdxs_docText :
    ∀ (is : List Nat) (t : DocTree) (df : List IRow) (s e c : Nat), s ≤ e →
      docText (hlIdxs is t df s e c).1 = docText t := by
  intro is
  induction is with
  | nil => intro t df s e c _; rfl
  | cons i rest ih =>
    intro t df s e c hse
    cases hidx : df[i]? with
    | none => simp [hlIdxs, hidx]
    | some row =>
      cases hb : hlBasic t df i (s - row.first_num) ((e - row.first_num) + 1) c with
      | error er => simp [hlIdxs, hidx, hb]
      | ok pr =>
        obtain ⟨t', df'⟩ := pr
        have hle : s - row.first_num ≤ (e - row.first_num) + 1 := by omega
        have h1 := hlBasic_docText t df i (s - row.first_num)
          ((e - row.first_num) + 1) c t' df' hb hle
        have h2 := ih t' df' s e c hse
        simp [hlIdxs, hidx, hb, h1, h2]

theorem hlLoop_docText :
    ∀ (ps : List (Option Nat × Option Nat)) (t : DocTree) (df : List IRow) (c : Nat),
      docText (hlLoop t df ps c).1 = docText t := by
  intro ps
  induction ps with
  | nil => intro t df c; rfl
  | cons hd rest ih =>
    intro t df c
    obtain ⟨a?, b?⟩ := hd
    cases a? with
    | none => simpa [hlLoop] using ih t df c
    | some a =>
      cases b? with
      | none => simpa [hlLoop] using ih t df c
      | some b =>
        by_cases hab : a > b
        · simp [hlLoop, hab]
        · have hse : a + 1 ≤ b + 1 := by omega
          have h1 := hlIdxs_docText (coveredIdx df (a + 1) (b + 1)) t df
            (a + 1) (b + 1) c hse
          cases hres : hlIdxs (coveredIdx df (a + 1) (b + 1)) t df (a + 1) (b + 1) c with
          | mk t' r =>
            cases r with
            | ok df' =>
              have h2 := ih t' df' c
              rw [hres] at h1
              simp only [hlLoop, hab, if_neg, hres]
              simpa [h1] using h2
            | error er =>
              rw [hres] at h1
              simp only [hlLoop, hab, if_neg, hres]
              simpa using h1

/-! ## The parse rows concatenate to the document text -/

theorem mapIdxFlat_flatten {α β γ : Type} (f : Nat → α → List β) (h : β → List γ)
    (e : α → List γ) (H : ∀ (k : Nat) (a : α), ((f k a).map h).flatten = e a) :
    ∀ (i : Nat) (l : List α),
      ((mapIdxFlat f i l).map h).flatten = (l.map e).flatten := by
  intro i l
  induction l generalizing i with
  | nil => rfl
  | cons a rest ih =>
    simp [mapIdxFlat, List.map_append, List.flatten_append, H, ih]

theorem paraRows_strings (p : Paragraph) (bc pc : Nat) :
    ((paraRows p bc pc).map Row.string).flatten = paraText p := by
  rw [paraRows, paraText]
  exact mapIdxFlat_flatten _ Row.string Run.text (fun k r => by simp) 0 p.runs

theorem tableRows_strings (t : Table) (bc tc : Nat) :
    ((tableRows t bc tc).map Row.string).flatten = tableText t := by
  rw [tableRows, tableText]
  refine mapIdxFlat_flatten _ Row.string rowText ?_ 0 t.rows
  intro ri trow
  rw [rowText]
  refine mapIdxFlat_flatten _ Row.string cellText ?_ 0 trow.cells
  intro ci cl
  rw [cellText]
  refine mapIdxFlat_flatten _ Row.string paraText ?_ 0 cl.paragraphs
  intro pi p
  rw [paraText]
  exact mapIdxFlat_flatten _ Row.string Run.text (fun k r => by simp) 0 p.runs

theorem parseGo_strings :
    ∀ (bs : List Block) (bc pc tc : Nat),
      ((parseGo bs bc pc tc).map Row.string).flatten = docText bs := by
  intro bs
  induction bs with
  | nil => intro bc pc tc; rfl
  | cons b rest ih =>
    intro bc pc tc
    cases b with
    | para p =>
      rw [parseGo, docText_cons]
      simp only [List.map_append, List.flatten_append, ih, blockText]
      rw [paraRows_strings]
    | table t =>
      rw [parseGo, docText_cons]
      simp only [List.map_append, List.flatten_append, ih, blockText]
      rw [tableRows_strings]

theorem parseDoc_strings (d : DocTree) :
    ((parseDoc d).map Row.string).flatten = docText d :=
  parseGo_strings d 0 0 0

/-- Claim C4: for every run split at relative range `[rel_start, rel_end)` with
`rel_start ≤ rel_end`, the sum of the lengths of the pieces actually inserted
equals the original run's text length (head ++ mid ++ tail = t), and
consequently the concatenation of all fragment strings in document order is
unchanged by a `highlight` call (stated for the tree a call returns, whether
it completes or raises: every performed split conserves the text). -/
theorem split_length_conservation :
    (∀ (r : Run) (rs re c : Nat), rs ≤ re →
      ((runPieces r rs re c).map fun q => q.text.length).sum = r.text.length) ∧
    (∀ (tree : DocTree) (self : Document) (ps : List (Option Nat × Option Nat))
      (c : Nat),
      ((parseDoc (highlight tree self ps c).1).map Row.string).flatten =
        ((parseDoc tree).map Row.string).flatten) := by
  constructor
  · intro r rs re c hle
    have h := congrArg List.length (runPieces_text r rs re c hle)
    simpa [List.length_flatten, Function.comp] using h
  · intro tree self ps c
    rw [parseDoc_strings, parseDoc_strings]
    have hloop := hlLoop_docText ps tree (addBounds (parseDoc tree)) c
    rw [highlight]
    cases hres : hlLoop tree (addBounds (parseDoc tree)) ps c with
    | mk t' r =>
      rw [hres] at hloop
      cases r <;> simpa using hloop

/-- Instantiation of `split_length_conservation`: splitting the
`"Hello world"` run at `[0, 5)` conserves the 11 characters, and the
scenario-A highlight call conserves the document text. -/
theorem split_length_conservation_inst :
    ((runPieces ⟨"Hello world".toList, fmt0, none⟩ 0 5 1).map
        fun q => q.text.length).sum = ("Hello world".toList).length ∧
      ((parseDoc (highlight helloDoc doc0 [(some 0, some 4)] 1).1).map
          Row.string).flatten =
        ((parseDoc helloDoc).map Row.string).flatten :=
  ⟨split_length_conservation.1 ⟨"Hello world".toList, fmt0, none⟩ 0 5 1
      (by decide),
   split_length_conservation.2 helloDoc doc0 [(some 0, some 4)] 1⟩

/-! ## Only `run_ID` changes between the ranges of one call -/

theorem mapFrom_map_core (f : Nat → IRow → IRow)
    (hf : ∀ (j : Nat) (r : IRow), (f j r).core = r.core) :
    ∀ (j : Nat) (df : List IRow),
      (mapFrom f j df).map IRow.core = df.map IRow.core := by
  intro j df
  induction df generalizing j with
  | nil => rfl
  | cons r rest ih => simp [mapFrom, hf, ih]

theorem renumPara_core (df : List IRow) (idx pid : Nat) :
    (renumPara df idx pid).map IRow.core = df.map IRow.core := by
  refine mapFrom_map_core _ ?_ 0 df
  intro j r
  by_cases h : r.paragraph_ID = pid ∧ idx < j <;> simp [h, IRow.core]

theorem renumTable_core (df : List IRow) (idx tid rid cid pid : Nat) :
    (renumTable df idx tid rid cid pid).map IRow.core = df.map IRow.core := by
  refine mapFrom_map_core _ ?_ 0 df
  intro j r
  by_cases h : r.tbl = some (tid, rid, cid) ∧ r.paragraph_ID = pid ∧ idx < j <;>
    simp [h, IRow.core]

theorem hlBasic_core (tree : DocTree) (df : List IRow) (idx rs re c : Nat)
    (t' : DocTree) (df' : List IRow)
    (h : hlBasic tree df idx rs re c = .ok (t', df')) :
    df'.map IRow.core = df.map IRow.core := by
  cases hidx : df[idx]? with
  | none => simp [hlBasic, hidx] at h
  | some row =>
    cases htbl : row.tbl with
    | none =>
      cases hp : (docParagraphs tree)[row.paragraph_ID]? with
      | none => simp [hlBasic, hidx, htbl, hp] at h
      | some p =>
        cases hr : p.runs[row.run_ID]? with
        | none => simp [hlBasic, hidx, htbl, hp, hr] at h
        | some r =>
          simp only [hlBasic, hidx, htbl, hp, hr, Except.ok.injEq,
            Prod.mk.injEq] at h
          rw [← h.2]
          split_ifs <;> simp [renumPara_core]
    | some trip =>
      obtain ⟨tid, rid, cid⟩ := trip
      cases ht : (docTables tree)[tid]? with
      | none => simp [hlBasic, hidx, htbl, ht] at h
      | some t =>
        cases hrow : t.rows[rid]? with
        | none => simp [hlBasic, hidx, htbl, ht, hrow] at h
        | some trow =>
          cases hcl : trow.cells[cid]? with
          | none => simp [hlBasic, hidx, htbl, ht, hrow, hcl] at h
          | some cl =>
            cases hp : cl.paragraphs[row.paragraph_ID]? with
            | none => simp [hlBasic, hidx, htbl, ht, hrow, hcl, hp] at h
            | some p =>
              cases hr : p.runs[row.run_ID]? with
              | none => simp [hlBasic, hidx, htbl, ht, hrow, hcl, hp, hr] at h
              | some r =>
                simp only [hlBasic, hidx, htbl, ht, hrow, hcl, hp, hr,
                  Except.ok.injEq, Prod.mk.injEq] at h
                rw [← h.2]
                split_ifs <;> simp [renumTable_core]

theorem hlIdxs_core :
    ∀ (is : List Nat) (t : DocTree) (df : List IRow) (s e c : Nat)
      (df' : List IRow), (hlIdxs is t df s e c).2 = .ok df' →
      df'.map IRow.core = df.map IRow.core := by
  intro is
  induction is with
  | nil =>
    intro t df s e c df' h
    simp only [hlIdxs] at h
    rw [Except.ok.injEq] at h
    rw [h]
  | cons i rest ih =>
    intro t df s e c df' h
    cases hidx : df[i]? with
    | none => simp [hlIdxs, hidx] at h
    | some row =>
      cases hb : hlBasic t df i (s - row.first_num) ((e - row.first_num) + 1) c with
      | error er => simp [hlIdxs, hidx, hb] at h
      | ok pr =>
        obtain ⟨t1, df1⟩ := pr
        simp only [hlIdxs, hidx, hb] at h
        have h1 := ih t1 df1 s e c df' h
        have h2 := hlBasic_core t df i (s - row.first_num)
          ((e - row.first_num) + 1) c t1 df1 hb
        rw [h1, h2]

/-- Claim C1 as stated is false on the code: processing the ranges
`[(0,1), (2,3)]` on a one-run `"abcd"` paragraph under the implemented loop
(one index computation per call) produces a different tree from the loop the
claim describes (fresh index recomputation against the just-mutated tree
before every range). -/
theorem hlLoop_ne_freshRecompute :
    (hlLoop abcdDoc (addBounds (parseDoc abcdDoc))
        [(some 0, some 1), (some 2, some 3)] 7).1 ≠
      (hlLoopFresh abcdDoc [(some 0, some 1), (some 2, some 3)] 7).1 := by
  decide

/-- Claim C1 amended: within a single `highlight` call the Position Index is
computed exactly once, before any range is processed; it is never recomputed
against the mutated tree.  Between ranges only the `run_ID` column is patched:
every DataFrame a range is resolved against has the same `string`,
`block_ID`, `paragraph_ID`, table coordinates, `len_string`, `first_num` and
`last_num` columns as the index built from the pre-call parse, so every later
range in the same call is resolved against the pre-call bounds. -/
theorem hlLoop_core_invariant :
    ∀ (ps : List (Option Nat × Option Nat)) (t : DocTree) (df : List IRow)
      (c : Nat) (df' : List IRow), (hlLoop t df ps c).2 = .ok df' →
      df'.map IRow.core = df.map IRow.core := by
  intro ps
  induction ps with
  | nil =>
    intro t df c df' h
    simp only [hlLoop] at h
    rw [Except.ok.injEq] at h
    rw [h]
  | cons hd rest ih =>
    intro t df c df' h
    obtain ⟨a?, b?⟩ := hd
    cases a? with
    | none => exact ih t df c df' (by simpa [hlLoop] using h)
    | some a =>
      cases b? with
      | none => exact ih t df c df' (by simpa [hlLoop] using h)
      | some b =>
        by_cases hab : a > b
        · simp [hlLoop, hab] at h
        · cases hres : hlIdxs (coveredIdx df (a + 1) (b + 1)) t df (a + 1) (b + 1) c with
          | mk t1 r =>
            cases r with
            | ok df1 =>
              simp only [hlLoop, hab, if_neg, hres] at h
              have h1 := ih t1 df1 c df' h
              have h2 := hlIdxs_core (coveredIdx df (a + 1) (b + 1)) t df
                (a + 1) (b + 1) c df1 (by rw [hres])
              rw [h1, h2]
            | error er =>
              simp [hlLoop, hab, hres] at h

/-- Instantiation of `hlLoop_core_invariant` on the mixed
paragraph-plus-table document: the call bumps the table rows' `run_ID`s but
leaves every other column equal to the pre-call index. -/
theorem hlLoop_core_invariant_inst :
    ([⟨⟨['a', 'b'], 0, 0, 0, none⟩, 2, 1, 2⟩,
      ⟨⟨['x'], 1, 1, 0, some (0, 0, 0)⟩, 1, 3, 3⟩,
      ⟨⟨['y'], 2, 1, 0, some (0, 0, 0)⟩, 1, 4, 4⟩] : List IRow).map IRow.core =
      (addBounds (parseDoc mixedDoc)).map IRow.core :=
  hlLoop_core_invariant [(some 0, some 0)] mixedDoc
    (addBounds (parseDoc mixedDoc)) 3
    [⟨⟨['a', 'b'], 0, 0, 0, none⟩, 2, 1, 2⟩,
     ⟨⟨['x'], 1, 1, 0, some (0, 0, 0)⟩, 1, 3, 3⟩,
     ⟨⟨['y'], 2, 1, 0, some (0, 0, 0)⟩, 1, 4, 4⟩] rfl

/-! ## The split pieces -/

/-- Claim C2 as stated is false on the code: the mid piece is always inserted,
even when empty, so a split does not omit "any empty piece".  On a run with
empty text the implemented split inserts one empty highlighted run where the
claim's zero-to-three-with-empty-omitted split inserts nothing, and the
highlight call on the `["a", ""]` paragraph leaves an empty highlighted run in
the tree. -/
theorem runPieces_empty_mid_inserted :
    runPieces ⟨[], fmt0, none⟩ 0 1 5 ≠ claimSplitPieces ⟨[], fmt0, none⟩ 0 1 5 ∧
      (hlLoop emptyMidDoc (addBounds (parseDoc emptyMidDoc))
          [(some 0, some 1)] 5).1 =
        [Block.para ⟨[⟨['a'], fmt0, some 5⟩, ⟨[], fmt0, some 5⟩]⟩] := by
  decide

/-- Claim C2 amended: every run split inserts the pieces
`head = t[0:rel_start]`, `mid = t[rel_start:rel_end]`, `tail = t[rel_end:]` in
that order, omitting an empty head or tail but always inserting the mid piece
(one to three new runs); each piece copies the original run's
style/bold/cs_bold/italic/size/underline formatting and only the mid piece
carries the requested highlight; `highlight([(0,4)], RED)` on a single-run
`"Hello world"` paragraph leaves exactly the 2 runs `"Hello"` (highlighted)
and `" world"` (unhighlighted), with the concatenated text unchanged. -/
theorem runPieces_fmt_highlight_scenarioA :
    (∀ (r : Run) (rs re c : Nat) (q : Run),
      q ∈ runPieces r rs re c → q.fmt = r.fmt) ∧
    (∀ (r : Run) (rs re c : Nat),
      (runPieces r rs re c).filter (fun q => q.highlight_color.isSome) =
        [⟨(r.text.drop rs).take (re - rs), r.fmt, some c⟩]) ∧
    (∀ (r : Run) (rs re c : Nat),
      1 ≤ (runPieces r rs re c).length ∧ (runPieces r rs re c).length ≤ 3) ∧
    ((highlight helloDoc doc0 [(some 0, some 4)] 1).1 =
      [Block.para ⟨[⟨"Hello".toList, fmt0, some 1⟩,
                    ⟨" world".toList, fmt0, none⟩]⟩]) ∧
    docText (highlight helloDoc doc0 [(some 0, some 4)] 1).1 =
      "Hello world".toList := by
  refine ⟨?_, ?_, ?_, by decide, by decide⟩
  · intro r rs re c q hq
    rw [runPieces] at hq
    by_cases h1 : r.text.take rs = [] <;> by_cases h2 : r.text.drop re = []
    · simp [h1, h2] at hq; subst hq; rfl
    · simp [h1, h2] at hq; rcases hq with rfl | rfl <;> rfl
    · simp [h1, h2] at hq; rcases hq with rfl | rfl <;> rfl
    · simp [h1, h2] at hq; rcases hq with rfl | rfl | rfl <;> rfl
  · intro r rs re c
    rw [runPieces]
    by_cases h1 : r.text.take rs = [] <;> by_cases h2 : r.text.drop re = [] <;>
      simp [h1, h2, List.filter]
  · intro r rs re c
    rw [runPieces]
    by_cases h1 : r.text.take rs = [] <;> by_cases h2 : r.text.drop re = [] <;>
      simp [h1, h2]

/-- Instantiation of `runPieces_fmt_highlight_scenarioA`: the tail piece of the
split of `"ab"` at `[0, 1)` inherits the original formatting. -/
theorem runPieces_fmt_inst :
    (⟨['b'], fmt0, none⟩ : Run).fmt = (⟨"ab".toList, fmt0, none⟩ : Run).fmt :=
  runPieces_fmt_highlight_scenarioA.1 ⟨"ab".toList, fmt0, none⟩ 0 1 5
    ⟨['b'], fmt0, none⟩ (by decide)

/-! ## The paragraph-branch renumbering crosses block boundaries -/

/-- Claim C5 fails on the code: on a document holding a paragraph (runs
`"ab"`) followed by a table whose cell paragraph (cell-local `paragraph_ID`
0, equal to the top-level paragraph's `paragraph_ID`) holds runs `"x"`, `"y"`,
the call `highlight([(0,0)], 3)` splits the paragraph run with a nonempty tail
and the renumbering — which matches on `paragraph_ID` and row position only —
also increments the `run_ID` of both table rows (to 1 and 2, though the cell's
runs still sit at positions 0 and 1), so `run_ID` density is violated and rows
of another block are modified. -/
theorem renumber_crosses_blocks_eval :
    hlLoop mixedDoc (addBounds (parseDoc mixedDoc)) [(some 0, some 0)] 3 =
      ([Block.para ⟨[⟨['a'], fmt0, some 3⟩, ⟨['b'], fmt0, none⟩]⟩,
        Block.table ⟨[⟨[⟨[⟨[⟨['x'], fmt0, none⟩, ⟨['y'], fmt0, none⟩]⟩]⟩]⟩]⟩],
       .ok [⟨⟨['a', 'b'], 0, 0, 0, none⟩, 2, 1, 2⟩,
            ⟨⟨['x'], 1, 1, 0, some (0, 0, 0)⟩, 1, 3, 3⟩,
            ⟨⟨['y'], 2, 1, 0, some (0, 0, 0)⟩, 1, 4, 4⟩]) := by
  rfl

/-! ## Error handling of the range loop -/

theorem hlLoop_append :
    ∀ (ps₁ : List (Option Nat × Option Nat)) (t : DocTree) (df : List IRow)
      (ps₂ : List (Option Nat × Option Nat)) (c : Nat),
      hlLoop t df (ps₁ ++ ps₂) c =
        match hlLoop t df ps₁ c with
        | (t₁, .ok df₁) => hlLoop t₁ df₁ ps₂ c
        | (t₁, .error e) => (t₁, .error e) := by
  intro ps₁
  induction ps₁ with
  | nil => intro t df ps₂ c; simp [hlLoop]
  | cons hd rest ih =>
    intro t df ps₂ c
    obtain ⟨a?, b?⟩ := hd
    cases a? with
    | none => simpa [hlLoop] using ih t df ps₂ c
    | some a =>
      cases b? with
      | none => simpa [hlLoop] using ih t df ps₂ c
      | some b =>
        by_cases hab : a > b
        · simp [hlLoop, hab]
        · cases hres : hlIdxs (coveredIdx df (a + 1) (b + 1)) t df (a + 1) (b + 1) c with
          | mk t1 r =>
            cases r with
            | ok df1 =>
              simp only [List.cons_append, hlLoop, hab, if_neg, hres]
              exact ih t1 df1 ps₂ c
            | error er =>
              simp [List.cons_append, hlLoop, hab, hres]

/-- Claim C6: `highlight` raises the invalid-range `ValueError` synchronously
when it reaches a supplied range with `end < start`, aborting the call at the
tree state reached so far (ranges already processed in the same call are not
rolled back), and when the invalid range is the first one processed — as in
`highlight([(5,2)], RED)` — the tree is not mutated at all. -/
theorem invalid_range_aborts :
    (∀ (t : DocTree) (df : List IRow)
      (ps₁ ps₂ : List (Option Nat × Option Nat)) (a b c : Nat)
      (t₁ : DocTree) (df₁ : List IRow), b < a →
      hlLoop t df ps₁ c = (t₁, .ok df₁) →
      hlLoop t df (ps₁ ++ (some a, some b) :: ps₂) c =
        (t₁, .error .invalidRange)) ∧
    ((highlight helloDoc doc0 [(some 5, some 2)] 9).1 = helloDoc ∧
      (highlight helloDoc doc0 [(some 5, some 2)] 9).2.2 =
        .error .invalidRange) := by
  refine ⟨?_, rfl, rfl⟩
  intro t df ps₁ ps₂ a b c t₁ df₁ hba h1
  rw [hlLoop_append, h1]
  have hab : a > b := hba
  simp [hlLoop, hab]

/-- Instantiation of `invalid_range_aborts` with the inverted range `(5,2)` as
the only range of the call. -/
theorem invalid_range_aborts_inst :
    hlLoop helloDoc (addBounds (parseDoc helloDoc))
        ([] ++ (some 5, some 2) :: []) 9 =
      (helloDoc, .error .invalidRange) :=
  invalid_range_aborts.1 helloDoc (addBounds (parseDoc helloDoc)) [] [] 5 2 9
    helloDoc (addBounds (parseDoc helloDoc)) (by decide) rfl

/-- Claim C9: a range with a missing (NaN) endpoint is silently skipped as a
no-op wherever it appears in the position list — it raises nothing, mutates
nothing for that range, and the loop continues with the remaining ranges
exactly as if the pair were absent. -/
theorem nan_range_skipped :
    ∀ (t : DocTree) (df : List IRow) (a? b? : Option Nat)
      (ps : List (Option Nat × Option Nat)) (c : Nat),
      a? = none ∨ b? = none →
      hlLoop t df ((a?, b?) :: ps) c = hlLoop t df ps c := by
  intro t df a? b? ps c h
  rcases h with rfl | rfl
  · cases b? <;> simp [hlLoop]
  · cases a? <;> simp [hlLoop]

/-- Instantiation of `nan_range_skipped`: a leading `(NaN, 3)` range is a
no-op. -/
theorem nan_range_skipped_inst :
    hlLoop helloDoc (addBounds (parseDoc helloDoc)) [(none, some 3)] 1 =
      hlLoop helloDoc (addBounds (parseDoc helloDoc)) [] 1 :=
  nan_range_skipped helloDoc (addBounds (parseDoc helloDoc)) none (some 3) [] 1
    (Or.inl rfl)

/-! ## The returned Document -/

/-- Claim C10: every completed `highlight` call returns a newly constructed
`Document` wrapping the same element and the same part as the receiver (so
the tree mutations are observable through both), whose cached `dataframe` and
`dataframe_without_sc` accessors are still `None` at return (until `parse` is
invoked on it) — in particular it is distinct from the receiver, whose
`_dataframe` cache the call has just populated. -/
theorem highlight_returns_fresh_document :
    ∀ (tree : DocTree) (self : Document) (ps : List (Option Nat × Option Nat))
      (c : Nat) (doc : Document) (df' : List IRow),
      (highlight tree self ps c).2.2 = .ok (doc, df') →
      doc.elemId = self.elemId ∧ doc.partId = self.partId ∧
        doc.dataframe = none ∧ doc.dataframe_without_sc = none ∧
        doc ≠ (highlight tree self ps c).2.1 := by
  intro tree self ps c doc df' h
  cases hres : hlLoop tree (addBounds (parseDoc tree)) ps c with
  | mk t' r =>
    cases r with
    | error e => simp [highlight, hres] at h
    | ok df1 =>
      simp only [highlight, hres, Except.ok.injEq, Prod.mk.injEq] at h
      obtain ⟨hdoc, hdf⟩ := h
      subst hdoc
      refine ⟨rfl, rfl, rfl, rfl, ?_⟩
      simp only [highlight, hres]
      intro hcon
      have := congrArg Document.dataframe hcon
      simp at this

/-- Instantiation of `highlight_returns_fresh_document` on the
`"Hello world"` document with an empty range list. -/
theorem highlight_returns_fresh_document_inst :
    (⟨0, 0, none, none⟩ : Document).elemId = doc0.elemId ∧
      (⟨0, 0, none, none⟩ : Document).partId = doc0.partId ∧
      (⟨0, 0, none, none⟩ : Document).dataframe = none ∧
      (⟨0, 0, none, none⟩ : Document).dataframe_without_sc = none ∧
      (⟨0, 0, none, none⟩ : Document) ≠ (highlight helloDoc doc0 [] 1).2.1 :=
  highlight_returns_fresh_document helloDoc doc0 [] 1 ⟨0, 0, none, none⟩
    (addBounds (parseDoc helloDoc)) rfl

end Docx

